import Mathlib

/-!
Verification of the Karr linear-invariant engine
(`dl_mk_karr_invariants.cpp`) against its design specification.

Modelling conventions:
* The engine works exclusively over integer-sorted terms (`a.is_int` guards
  in `is_linear`, `n.is_int()` in `add_fact`, `m_value.is_int()` in
  `filter_equal_fn`).  Numerals are therefore modelled with integer values,
  and matrix entries — stored as arbitrary-precision rationals in the
  source, but only ever holding integers produced by those guarded entry
  points — are modelled over `ℤ`.
* n-ary additions and conjunctions of the symbolic layer are modelled as
  nested binary nodes; `bool_rewriter::mk_and` returns `true` for zero
  conjuncts and the conjunct itself for one, which `mkAndE` mirrors.
* The lazily re-derived forms (`get_ineqs` / `get_basis`) call into the
  Hilbert-basis saturator; operations that in the source begin with such a
  call are modelled on relations whose corresponding validity flag is
  already set, and the dualization itself is modelled separately with the
  saturator outcome as an explicit parameter (`SatResult`).
-/

namespace Karr

/-- Symbolic expressions: the integer-arithmetic and boolean fragment the
engine inspects (variables are de Bruijn indices = relation columns). -/
inductive Expr where
  | var : ℕ → Expr
  | num : ℤ → Expr
  | add : Expr → Expr → Expr
  | sub : Expr → Expr → Expr
  | mul : Expr → Expr → Expr
  | uminus : Expr → Expr
  | eqE : Expr → Expr → Expr
  | le : Expr → Expr → Expr
  | ge : Expr → Expr → Expr
  | lt : Expr → Expr → Expr
  | gt : Expr → Expr → Expr
  | notE : Expr → Expr
  | orE : Expr → Expr → Expr
  | andE : Expr → Expr → Expr
  | trueE : Expr
  | falseE : Expr
deriving DecidableEq, Repr

/-- `a.is_numeral(e, n)` (with `n.is_int()` holding by the integer-sort
discipline, see the header comment). -/
def isNumeral : Expr → Option ℤ
  | .num n => some n
  | _ => none

/-- `m.is_true(e)`. -/
def isTrueE : Expr → Bool
  | .trueE => true
  | _ => false

/-- Integer value of an arithmetic expression under an assignment of the
columns (boolean nodes are never evaluated arithmetically; they get 0). -/
def evalArith (x : ℕ → ℤ) : Expr → ℤ
  | .var i => x i
  | .num n => n
  | .add e1 e2 => evalArith x e1 + evalArith x e2
  | .sub e1 e2 => evalArith x e1 - evalArith x e2
  | .mul e1 e2 => evalArith x e1 * evalArith x e2
  | .uminus e1 => - evalArith x e1
  | _ => 0

/-- Truth value of a boolean expression under an assignment. -/
def evalProp (x : ℕ → ℤ) : Expr → Bool
  | .eqE e1 e2 => decide (evalArith x e1 = evalArith x e2)
  | .le e1 e2 => decide (evalArith x e1 ≤ evalArith x e2)
  | .ge e1 e2 => decide (evalArith x e2 ≤ evalArith x e1)
  | .lt e1 e2 => decide (evalArith x e1 < evalArith x e2)
  | .gt e1 e2 => decide (evalArith x e2 < evalArith x e1)
  | .notE e1 => ! evalProp x e1
  | .orE e1 e2 => evalProp x e1 || evalProp x e2
  | .andE e1 e2 => evalProp x e1 && evalProp x e2
  | .trueE => true
  | _ => false

/-- All variable indices of an expression lie below `n` (the relation
arity); the source indexes rows of width `n` with these indices. -/
def varsBelow (n : ℕ) : Expr → Bool
  | .var i => decide (i < n)
  | .num _ => true
  | .add e1 e2 => varsBelow n e1 && varsBelow n e2
  | .sub e1 e2 => varsBelow n e1 && varsBelow n e2
  | .mul e1 e2 => varsBelow n e1 && varsBelow n e2
  | .uminus e1 => varsBelow n e1
  | .eqE e1 e2 => varsBelow n e1 && varsBelow n e2
  | .le e1 e2 => varsBelow n e1 && varsBelow n e2
  | .ge e1 e2 => varsBelow n e1 && varsBelow n e2
  | .lt e1 e2 => varsBelow n e1 && varsBelow n e2
  | .gt e1 e2 => varsBelow n e1 && varsBelow n e2
  | .notE e1 => varsBelow n e1
  | .orE e1 e2 => varsBelow n e1 && varsBelow n e2
  | .andE e1 e2 => varsBelow n e1 && varsBelow n e2
  | .trueE => true
  | .falseE => true

/-- One row of the constraint/basis matrix: coefficient vector `A[i]`,
constant `b[i]`, and the equality tag `eq[i]`.  Row semantics:
`a·x + b = 0` if `eq`, else `a·x + b ≥ 0`. -/
structure KRow where
  a : List ℤ
  b : ℤ
  eq : Bool
deriving DecidableEq, Repr

/-- The `matrix` of the source: parallel vectors `A`, `b`, `eq`, always
pushed in lockstep, modelled as one list of rows. -/
abbrev KMatrix := List KRow

def zeroRow (n : ℕ) : List ℤ := List.replicate n 0

def unitRow (n : ℕ) (i : ℕ) (c : ℤ) : List ℤ := (zeroRow n).set i c

/-- `row[i] += q` (`is_linear`'s variable case). -/
def addAt (row : List ℤ) (i : ℕ) (q : ℤ) : List ℤ :=
  row.set i (row.getD i 0 + q)

/-- `Σⱼ row[j]·x(i+j)`. -/
def dotAux (x : ℕ → ℤ) : List ℤ → ℕ → ℤ
  | [], _ => 0
  | c :: cs, i => c * x i + dotAux x cs (i + 1)

/-- `Σⱼ row[j]·xⱼ`. -/
def dot (row : List ℤ) (x : ℕ → ℤ) : ℤ := dotAux x row 0

/-- The karr relation state: arity, emptiness flag, the two lazily
synchronised matrix forms with their validity flags
(`m_empty`, `m_ineqs`, `m_ineqs_valid`, `m_basis`, `m_basis_valid`). -/
structure KarrRel where
  sig : ℕ
  empty : Bool
  ineqs : KMatrix
  ineqs_valid : Bool
  basis : KMatrix
  basis_valid : Bool
deriving DecidableEq, Repr

/-- `karr_relation_plugin::mk_full`: constructor with `is_empty = false`,
hence `m_ineqs_valid = true`, `m_basis_valid = false`, both matrices empty. -/
def mk_full (n : ℕ) : KarrRel :=
  { sig := n, empty := false, ineqs := [], ineqs_valid := true,
    basis := [], basis_valid := false }

/-- `karr_relation_plugin::mk_empty`: constructor with `is_empty = true`. -/
def mk_empty (n : ℕ) : KarrRel :=
  { sig := n, empty := true, ineqs := [], ineqs_valid := false,
    basis := [], basis_valid := false }

/-- `karr_relation::copy`: copies both matrices, both validity flags and
the emptiness flag (the signature stays the receiver's). -/
def copyRel (dst src : KarrRel) : KarrRel :=
  { dst with empty := src.empty,
             ineqs := src.ineqs, ineqs_valid := src.ineqs_valid,
             basis := src.basis, basis_valid := src.basis_valid }

/-! ## FormulaEmitter (`to_formula` / `mk_body`) -/

/-- `a.mk_add` over the accumulated summand list (nested binary; empty sum
never arises for the rows the engine builds, `num 0` is its value). -/
def mkAddE : List Expr → Expr
  | [] => .num 0
  | [e] => e
  | e :: es => .add e (mkAddE es)

/-- `bool_rewriter::mk_and`: `true` for zero conjuncts, the conjunct for
one, nested conjunction otherwise. -/
def mkAndE : List Expr → Expr
  | [] => .trueE
  | [e] => e
  | e :: es => .andE e (mkAndE es)

/-- The summands of a row: zero coefficients elided, coefficient 1 rendered
as a bare variable, otherwise `c·xᵢ` (the loop of `to_formula(row,…)`). -/
def rowTerms : List ℤ → ℕ → List Expr
  | [], _ => []
  | c :: cs, i =>
    (if c = 0 then [] else if c = 1 then [Expr.var i] else [Expr.mul (.num c) (.var i)])
      ++ rowTerms cs (i + 1)

/-- One row rendered as `Σ c·x + b = 0` or `Σ c·x + b ≥ 0`
(`karr_relation::to_formula(row, b, is_eq, conj)`). -/
def rowFormula (r : KRow) : Expr :=
  let sum := rowTerms r.a 0 ++ (if r.b = 0 then [] else [Expr.num r.b])
  let lhs := mkAddE sum
  if r.eq then .eqE lhs (.num 0) else .ge lhs (.num 0)

/-- `karr_relation::to_formula`: `false` for an empty relation, otherwise
the conjunction of the rows of the (materialised) constraint form. -/
def to_formula (r : KarrRel) : Expr :=
  if r.empty then .falseE
  else mkAndE (r.ineqs.map rowFormula)

/-! ## `add_fact` -/

/-- The rows pushed by `add_fact`'s loop: for component `i` that is an
integer numeral `k`, the row `(eᵢ, −k, equality)` of width `width`. -/
def factRows (width : ℕ) : List Expr → ℕ → KMatrix
  | [], _ => []
  | e :: es, i =>
    (match isNumeral e with
     | some k => [⟨unitRow width i 1, -k, true⟩]
     | none => []) ++ factRows width es (i + 1)

/-- `karr_relation::add_fact` (called on a freshly empty relation):
clears `empty`, sets `ineqs_valid`, pins every integer-numeral component. -/
def add_fact (r : KarrRel) (f : List Expr) : KarrRel :=
  { r with empty := false, ineqs_valid := true,
           ineqs := r.ineqs ++ factRows f.length f 0 }

/-! ## ConstraintParser (`is_linear`, `is_eq`, `filter_interpreted`) -/

/-- `karr_relation::is_linear(e, row, b, mul)`: accumulates `mul·e` into
the row/constant pair, failing on any non-linear (or non-integer) shape.
Branch order follows the source: variable, numeral, addition, subtraction,
multiplication with a numeral on either side, unary minus. -/
def is_linear : Expr → List ℤ → ℤ → ℤ → Option (List ℤ × ℤ)
  | .var i, row, b, mul => some (addAt row i mul, b)
  | .num n, row, b, mul => some (row, b + mul * n)
  | .add e1 e2, row, b, mul =>
    match is_linear e1 row b mul with
    | some (r, b1) => is_linear e2 r b1 mul
    | none => none
  | .sub e1 e2, row, b, mul =>
    match is_linear e1 row b mul with
    | some (r, b1) => is_linear e2 r b1 (-mul)
    | none => none
  | .mul e1 e2, row, b, mul =>
    match isNumeral e1 with
    | some n => is_linear e2 row b (mul * n)
    | none =>
      match isNumeral e2 with
      | some n => is_linear e1 row b (mul * n)
      | none => none
  | .uminus e1, row, b, mul => is_linear e1 row b (-mul)
  | _, _, _, _ => none

/-- `karr_relation::is_eq(e, v, n)`: `e` is `v = n` or `n = v` for a
variable `v` and a numeral `n` (the source swaps the sides if the first is
not a variable). -/
def isEqVarNum : Expr → Option (ℕ × ℤ)
  | .eqE (.var v) e2 =>
    (match isNumeral e2 with
     | some n => some (v, n)
     | none => none)
  | .eqE e1 (.var v) =>
    (match isNumeral e1 with
     | some n => some (v, n)
     | none => none)
  | _ => none

/-- The shared tail of the inequality branches of `filter_interpreted`:
linearise `lo` with multiplier −1 and `hi` with +1 into a fresh zero row,
and push the inequality row with the constant decremented by `dec`
(`dec = 1` is the strict-to-non-strict integer tightening). -/
def pushIneq (M : KMatrix) (n : ℕ) (lo hi : Expr) (dec : ℤ) : KMatrix :=
  match is_linear lo (zeroRow n) 0 (-1) with
  | some (r1, b1) =>
    match is_linear hi r1 b1 1 with
    | some (r, b) => M ++ [⟨r, b - dec, false⟩]
    | none => M
  | none => M

/-- One iteration of the conjunct loop of
`karr_relation::filter_interpreted` on an atom `e`: the recognised shapes
push a row (or two, for the disjunction shape) onto `M`; anything else is
ignored.  The argument bindings of each branch mirror the out-parameter
bindings of the source's `is_le`/`is_ge`/`is_lt`/`is_gt` tests. -/
def filterConjunct (n : ℕ) (M : KMatrix) (e : Expr) : KMatrix :=
  match e with
  | .eqE e1 e2 =>
    (match is_linear e1 (zeroRow n) 0 1 with
     | some (r1, b1) =>
       (match is_linear e2 r1 b1 (-1) with
        | some (r, b) => M ++ [⟨r, b, true⟩]
        | none => M)
     | none => M)
  | .le e1 e2 => pushIneq M n e1 e2 0
  | .ge e1 e2 => pushIneq M n e2 e1 0
  | .lt e1 e2 => pushIneq M n e1 e2 1
  | .gt e1 e2 => pushIneq M n e2 e1 1
  | .notE (.lt e2 e1) => pushIneq M n e1 e2 0
  | .notE (.gt e1 e2) => pushIneq M n e1 e2 0
  | .notE (.le e2 e1) => pushIneq M n e1 e2 1
  | .notE (.ge e1 e2) => pushIneq M n e1 e2 1
  | .orE e1 e2 =>
    (match isEqVarNum e1, isEqVarNum e2 with
     | some (v, m1), some (w, m2) =>
       if v = w then
         let lo := if m1 > m2 then m2 else m1
         let hi := if m1 > m2 then m1 else m2
         let row1 := unitRow n v 1
         let row2 := row1.set v (-1)
         M ++ [⟨row1, -lo, false⟩, ⟨row2, hi, false⟩]
       else M
     | _, _ => M)
  | _ => M

/-- `filter_interpreted` over the flattened conjunct list (the flattening
of the condition into atoms is external `flatten_and`). -/
def filter_interpreted (n : ℕ) (M : KMatrix) (conjs : List Expr) : KMatrix :=
  conjs.foldl (filterConjunct n) M

/-! ## `filter_equal_fn` -/

/-- Constructor state of `karr_relation_plugin::filter_equal_fn`:
`m_valid = a.is_numeral(value, m_value) && m_value.is_int()`. -/
structure FilterEqualFn where
  col : ℕ
  value : ℤ
  valid : Bool
deriving DecidableEq, Repr

def mkFilterEqualFn (value : Expr) (col : ℕ) : FilterEqualFn :=
  match isNumeral value with
  | some k => ⟨col, k, true⟩
  | none => ⟨col, 0, false⟩

/-- `filter_equal_fn::operator()`: when valid, push the row with
coefficient 1 at `m_col` and — exactly as the source does — the constant
`rational(-1)` (NOT `-m_value`), and invalidate the basis; otherwise leave
the relation untouched.  Modelled on a relation whose constraint form is
already materialised (`r.get_ineqs()` is then the identity). -/
def applyFilterEqual (fn : FilterEqualFn) (r : KarrRel) : KarrRel :=
  if fn.valid then
    { r with ineqs := r.ineqs ++ [⟨unitRow r.sig fn.col 1, -1, true⟩],
             basis_valid := false }
  else r

/-! ## `mk_rename` -/

/-- The in-place shift loop of `mk_rename(matrix&, …)`:
for `i = 0..k−2`, `row[cols[i]] ← row[cols[i+1]]`, sequentially. -/
def shiftLoop : List ℤ → List ℕ → List ℤ
  | row, c1 :: c2 :: rest => shiftLoop (row.set c1 (row.getD c2 0)) (c2 :: rest)
  | row, _ => row

/-- One row of `mk_rename(matrix&, col_cnt, cols)`:
`tmp ← row[cols[0]]`; the shift loop; `row[cols[k−1]] ← tmp`. -/
def renameRow (cols : List ℕ) (row : List ℤ) : List ℤ :=
  match cols with
  | [] => row
  | c0 :: rest =>
    let tmp := row.getD c0 0
    (shiftLoop row (c0 :: rest)).set ((c0 :: rest).getLast (by simp)) tmp

/-- `karr_relation::mk_rename(matrix&, …)` applied to every row. -/
def renameMatrix (cols : List ℕ) (M : KMatrix) : KMatrix :=
  M.map (fun r => { r with a := renameRow cols r.a })

/-- `karr_relation::mk_rename(r, cols)` building the result relation (the
receiver comes from `mk_full`): empty input yields an empty result;
otherwise both validity flags are copied from `r` and each currently valid
matrix form is renamed. -/
def mk_rename (cols : List ℕ) (r : KarrRel) : KarrRel :=
  if r.empty then { mk_full r.sig with empty := true }
  else
    { sig := r.sig, empty := false,
      ineqs := if r.ineqs_valid then renameMatrix cols r.ineqs else [],
      ineqs_valid := r.ineqs_valid,
      basis := if r.basis_valid then renameMatrix cols r.basis else [],
      basis_valid := r.basis_valid }

/-! ## `mk_union` -/

/-- `karr_relation::same_row` together with the `b`/`eq` comparison of the
duplicate test in `mk_union`. -/
def sameRowB (s r : KRow) : Bool :=
  s.a == r.a && s.b == r.b && s.eq == r.eq

/-- The rows of `M` that have no exact duplicate among the (original) rows
of `N`; `mk_union` appends exactly these, in order. -/
def newUnionRows (N M : KMatrix) : KMatrix :=
  M.filter (fun r => ! N.any (fun s => sameRowB s r))

/-- `karr_relation::mk_union(src, delta)`, modelled on relations whose
basis form is already materialised (`get_basis` is then the identity; the
lazy dualization is modelled by `init_basis` below).  Returns the updated
target together with the updated delta (when one was supplied). -/
def mk_union (self src : KarrRel) (delta : Option KarrRel) :
    KarrRel × Option KarrRel :=
  if src.empty then
    (self, delta.map (fun d => { d with empty := true }))
  else
    let M := src.basis
    if self.empty then
      let self2 := { self with basis := M, basis_valid := true,
                               empty := false, ineqs_valid := false }
      (self2, delta.map (fun d => copyRel d self2))
    else
      let N := self.basis
      let N2 := N ++ newUnionRows N M
      let self2 := { self with basis := N2, ineqs_valid := false }
      (self2,
       if N.length ≠ N2.length then delta.map (fun d => copyRel d self2)
       else delta)

/-! ## Dualizer (`dualizeI` and `init_basis`) -/

/-- Outcome of `m_hb.saturate()` as observed by `dualizeI`: UNSAT, UNDEF,
a thrown exception (caught and collapsed to UNDEF), or SAT together with
the enumerated basis solutions, each tagged with its `is_initial` flag. -/
inductive SatResult where
  | unsat
  | undef
  | exn
  | sat (solns : List (List ℤ × Bool))
deriving DecidableEq, Repr

/-- The SAT emission loop of `dualizeI`: while `first_initial` is still
set, the first initial solution is emitted with constant 1 and clears the
flag; later initial solutions are dropped; every non-initial solution is
emitted with constant 0; all rows are tagged equality. -/
def emitBasis : List (List ℤ × Bool) → Bool → KMatrix
  | [], _ => []
  | (s, isInit) :: rest, firstInitial =>
    if isInit && firstInitial then ⟨s, 1, true⟩ :: emitBasis rest false
    else if ! isInit then ⟨s, 0, true⟩ :: emitBasis rest firstInitial
    else emitBasis rest firstInitial

/-- `karr_relation_plugin::dualizeI` as a function of the saturator
outcome: `none` (= `return false`) on UNSAT; an empty basis on UNDEF and
after a caught exception; the emission loop on SAT. -/
def dualizeI : SatResult → Option KMatrix
  | .unsat => none
  | .undef => some []
  | .exn => some []
  | .sat solns => some (emitBasis solns true)

/-- `karr_relation::init_basis`: when the basis is invalid, a successful
dualization installs it and sets `basis_valid`; failure (UNSAT) marks the
relation empty. -/
def init_basis (r : KarrRel) (res : SatResult) : KarrRel :=
  if r.basis_valid then r
  else
    match dualizeI res with
    | some m => { r with basis := m, basis_valid := true }
    | none => { r with empty := true }

/-! ## Invariant map (`get_invariants`) and model converter -/

/-- `m_fun2inv.find(p, inv)`. -/
def findInv (m : List (ℕ × Expr)) (p : ℕ) : Option Expr :=
  (m.find? (fun q => q.1 = p)).map (fun q => q.2)

/-- `obj_map::insert`: overwrite the existing binding or append. -/
def insertInv : List (ℕ × Expr) → ℕ → Expr → List (ℕ × Expr)
  | [], p, f => [(p, f)]
  | (q, g) :: rest, p, f =>
    if q = p then (p, f) :: rest else (q, g) :: insertInv rest p f

/-- The per-predicate step of `get_invariants`'s retrieval loop: a formula
equal to `true` is skipped (`continue`); otherwise it is conjoined
(`m.mk_and`) with any existing entry and inserted. -/
def updateInvariant (m : List (ℕ × Expr)) (p : ℕ) (fml : Expr) :
    List (ℕ × Expr) :=
  if isTrueE fml then m
  else
    match findInv m p with
    | some inv => insertInv m p (.andE inv fml)
    | none => insertInv m p fml

/-- `add_invariant_model_converter::add`: records `(p, inv)` in the
parallel `m_funcs`/`m_invs` vectors unless `inv` is `true`. -/
def mcAdd (st : List (ℕ × Expr)) (p : ℕ) (inv : Expr) : List (ℕ × Expr) :=
  if isTrueE inv then st else st ++ [(p, inv)]

/-! ## Driver guards (`mk_karr_invariants::operator()`) -/

/-- A rule, abstracted to the one attribute the driver's guards inspect. -/
structure RuleR where
  hasNegation : Bool
deriving DecidableEq, Repr

/-- `mk_karr_invariants::operator()`: returns 0 — which the rule
transformer framework interprets as "no transformation, keep the input
rule set" — when the `karr` configuration flag is off or some rule has a
negated atom; otherwise it proceeds with the transformation proper,
abstracted here as `rest`. -/
def karrTransform (rest : List RuleR → Option (List RuleR))
    (karrFlag : Bool) (rules : List RuleR) : Option (List RuleR) :=
  if ! karrFlag then none
  else if rules.any (fun r => r.hasNegation) then none
  else rest rules

/-! ## Row arithmetic lemmas -/

theorem length_addAt (row : List ℤ) (i : ℕ) (q : ℤ) :
    (addAt row i q).length = row.length := by
  simp [addAt]

theorem dotAux_addAt (x : ℕ → ℤ) (row : List ℤ) (i j : ℕ) (q : ℤ)
    (h : i < row.length) :
    dotAux x (addAt row i q) j = dotAux x row j + q * x (j + i) := by
  induction row generalizing i j with
  | nil => simp at h
  | cons c cs ih =>
    cases i with
    | zero =>
      simp [addAt, dotAux]
      ring
    | succ i =>
      have hi : i < cs.length := by simpa using h
      have hset : addAt (c :: cs) (i + 1) q = c :: addAt cs i q := by
        simp [addAt, List.set, List.getD]
      rw [hset]
      simp only [dotAux]
      rw [ih i (j + 1) hi]
      have hidx : j + 1 + i = j + (i + 1) := by omega
      rw [hidx]
      ring

theorem dot_addAt (x : ℕ → ℤ) (row : List ℤ) (i : ℕ) (q : ℤ)
    (h : i < row.length) :
    dot (addAt row i q) x = dot row x + q * x i := by
  have := dotAux_addAt x row i 0 q h
  simpa [dot] using this

theorem dotAux_zeroRow (x : ℕ → ℤ) (n j : ℕ) :
    dotAux x (zeroRow n) j = 0 := by
  induction n generalizing j with
  | zero => simp [zeroRow, dotAux]
  | succ n ih =>
    simp [zeroRow, List.replicate, dotAux] at *
    exact ih _

theorem dot_zeroRow (x : ℕ → ℤ) (n : ℕ) : dot (zeroRow n) x = 0 :=
  dotAux_zeroRow x n 0

theorem unitRow_eq_addAt (n i : ℕ) (c : ℤ) :
    unitRow n i c = addAt (zeroRow n) i c := by
  rcases Nat.lt_or_ge i n with h | h
  · simp [unitRow, addAt, List.getD_eq_getElem?_getD, zeroRow,
      List.getElem?_replicate, h]
  · rw [unitRow, addAt,
        List.set_eq_of_length_le (by simpa [zeroRow] using h),
        List.set_eq_of_length_le (by simpa [zeroRow] using h)]

theorem dot_unitRow (x : ℕ → ℤ) (n i : ℕ) (c : ℤ) (h : i < n) :
    dot (unitRow n i c) x = c * x i := by
  rw [unitRow_eq_addAt]
  rw [dot_addAt x _ i c (by simpa [zeroRow] using h)]
  simp [dot_zeroRow]

theorem length_unitRow (n i : ℕ) (c : ℤ) : (unitRow n i c).length = n := by
  simp [unitRow, zeroRow]

/-! ## Soundness of the linear-term parser -/

theorem isNumeral_eval (x : ℕ → ℤ) (e : Expr) (n : ℤ)
    (h : isNumeral e = some n) : evalArith x e = n := by
  cases e <;> simp_all [isNumeral, evalArith]

/-- `is_linear e row b mul = some (r1, b1)` makes `(r1, b1)` represent the
affine form `(row, b) + mul·e`: the row keeps its width and the
represented affine function gains exactly `mul·e`. -/
theorem is_linear_sound (e : Expr) :
    ∀ (row : List ℤ) (b mul : ℤ) (r1 : List ℤ) (b1 : ℤ),
    is_linear e row b mul = some (r1, b1) →
    varsBelow row.length e = true →
    r1.length = row.length ∧
      ∀ x, dot r1 x + b1 = dot row x + b + mul * evalArith x e := by
  induction e with
  | var i =>
    intro row b mul r1 b1 h hv
    simp only [is_linear, Option.some.injEq, Prod.mk.injEq] at h
    obtain ⟨hr, hb⟩ := h
    simp only [varsBelow, decide_eq_true_eq] at hv
    subst hr hb
    refine ⟨length_addAt _ _ _, fun x => ?_⟩
    rw [dot_addAt x row i mul hv]
    simp [evalArith]
    ring
  | num n =>
    intro row b mul r1 b1 h hv
    simp only [is_linear, Option.some.injEq, Prod.mk.injEq] at h
    obtain ⟨hr, hb⟩ := h
    subst hr hb
    exact ⟨rfl, fun x => by simp [evalArith]; ring⟩
  | add e1 e2 ih1 ih2 =>
    intro row b mul r1 b1 h hv
    simp only [varsBelow, Bool.and_eq_true] at hv
    simp only [is_linear] at h
    rcases h1 : is_linear e1 row b mul with _ | ⟨r, bb⟩
    · rw [h1] at h; simp at h
    · rw [h1] at h; simp only at h
      obtain ⟨hlen1, hdot1⟩ := ih1 row b mul r bb h1 hv.1
      obtain ⟨hlen2, hdot2⟩ := ih2 r bb mul r1 b1 h (by rw [hlen1]; exact hv.2)
      refine ⟨hlen2.trans hlen1, fun x => ?_⟩
      rw [hdot2 x, hdot1 x]
      simp [evalArith]
      ring
  | sub e1 e2 ih1 ih2 =>
    intro row b mul r1 b1 h hv
    simp only [varsBelow, Bool.and_eq_true] at hv
    simp only [is_linear] at h
    rcases h1 : is_linear e1 row b mul with _ | ⟨r, bb⟩
    · rw [h1] at h; simp at h
    · rw [h1] at h; simp only at h
      obtain ⟨hlen1, hdot1⟩ := ih1 row b mul r bb h1 hv.1
      obtain ⟨hlen2, hdot2⟩ := ih2 r bb (-mul) r1 b1 h (by rw [hlen1]; exact hv.2)
      refine ⟨hlen2.trans hlen1, fun x => ?_⟩
      rw [hdot2 x, hdot1 x]
      simp [evalArith]
      ring
  | mul e1 e2 ih1 ih2 =>
    intro row b mul r1 b1 h hv
    simp only [varsBelow, Bool.and_eq_true] at hv
    simp only [is_linear] at h
    rcases h1 : isNumeral e1 with _ | n1
    · rw [h1] at h; simp only at h
      rcases h2 : isNumeral e2 with _ | n2
      · rw [h2] at h; simp at h
      · rw [h2] at h; simp only at h
        obtain ⟨hlen, hdot⟩ := ih1 row b (mul * n2) r1 b1 h hv.1
        refine ⟨hlen, fun x => ?_⟩
        rw [hdot x]
        rw [show evalArith x (.mul e1 e2) =
              evalArith x e1 * evalArith x e2 from rfl,
            isNumeral_eval x e2 n2 h2]
        ring
    · rw [h1] at h; simp only at h
      obtain ⟨hlen, hdot⟩ := ih2 row b (mul * n1) r1 b1 h hv.2
      refine ⟨hlen, fun x => ?_⟩
      rw [hdot x]
      rw [show evalArith x (.mul e1 e2) =
            evalArith x e1 * evalArith x e2 from rfl,
          isNumeral_eval x e1 n1 h1]
      ring
  | uminus e1 ih1 =>
    intro row b mul r1 b1 h hv
    simp only [varsBelow] at hv
    simp only [is_linear] at h
    obtain ⟨hlen, hdot⟩ := ih1 row b (-mul) r1 b1 h hv
    refine ⟨hlen, fun x => ?_⟩
    rw [hdot x]
    simp only [evalArith]
    ring
  | eqE e1 e2 _ _ => intro row b mul r1 b1 h _; simp [is_linear] at h
  | le e1 e2 _ _ => intro row b mul r1 b1 h _; simp [is_linear] at h
  | ge e1 e2 _ _ => intro row b mul r1 b1 h _; simp [is_linear] at h
  | lt e1 e2 _ _ => intro row b mul r1 b1 h _; simp [is_linear] at h
  | gt e1 e2 _ _ => intro row b mul r1 b1 h _; simp [is_linear] at h
  | notE e1 _ => intro row b mul r1 b1 h _; simp [is_linear] at h
  | orE e1 e2 _ _ => intro row b mul r1 b1 h _; simp [is_linear] at h
  | andE e1 e2 _ _ => intro row b mul r1 b1 h _; simp [is_linear] at h
  | trueE => intro row b mul r1 b1 h _; simp [is_linear] at h
  | falseE => intro row b mul r1 b1 h _; simp [is_linear] at h

/-- The shared inequality-emission step: the pushed row represents
`hi − lo` with constant `b`, decremented by `dec`. -/
theorem pushIneq_spec (M : KMatrix) (n : ℕ) (lo hi : Expr) (dec : ℤ)
    (r1 : List ℤ) (b1 : ℤ) (r : List ℤ) (b : ℤ)
    (hlo : varsBelow n lo = true) (hhi : varsBelow n hi = true)
    (h1 : is_linear lo (zeroRow n) 0 (-1) = some (r1, b1))
    (h2 : is_linear hi r1 b1 1 = some (r, b)) :
    pushIneq M n lo hi dec = M ++ [⟨r, b - dec, false⟩]
      ∧ ∀ x, dot r x + b = evalArith x hi - evalArith x lo := by
  have hz : (zeroRow n).length = n := by simp [zeroRow]
  obtain ⟨hl1, hd1⟩ :=
    is_linear_sound lo (zeroRow n) 0 (-1) r1 b1 h1 (by rw [hz]; exact hlo)
  obtain ⟨_, hd2⟩ :=
    is_linear_sound hi r1 b1 1 r b h2 (by rw [hl1, hz]; exact hhi)
  refine ⟨by simp [pushIneq, h1, h2], fun x => ?_⟩
  rw [hd2 x, hd1 x, dot_zeroRow]
  ring

/-- **C5.** A strict conjunct `e₁ < e₂` (or `e₂ > e₁`) with both sides
linear integer terms makes the parser push the inequality row for
`e₂ − e₁ ≥ 0` with the constant decremented by 1 (integer tightening);
`¬(e₂ ≤ e₁)` and `¬(e₁ ≥ e₂)` push the same tightened row; `¬(e₂ < e₁)`
and `¬(e₁ > e₂)` push the non-strict row without the decrement.  The
pushed row indeed represents `e₂ − e₁`, so the tightened row holds exactly
when `e₁ < e₂` and the non-strict one exactly when `e₁ ≤ e₂`. -/
theorem filter_interpreted_strict (n : ℕ) (M : KMatrix) (e1 e2 : Expr)
    (r1 : List ℤ) (b1 : ℤ) (r : List ℤ) (b : ℤ)
    (hv1 : varsBelow n e1 = true) (hv2 : varsBelow n e2 = true)
    (h1 : is_linear e1 (zeroRow n) 0 (-1) = some (r1, b1))
    (h2 : is_linear e2 r1 b1 1 = some (r, b)) :
    (filterConjunct n M (.lt e1 e2) = M ++ [⟨r, b - 1, false⟩]
      ∧ filterConjunct n M (.gt e2 e1) = M ++ [⟨r, b - 1, false⟩]
      ∧ filterConjunct n M (.notE (.le e2 e1)) = M ++ [⟨r, b - 1, false⟩]
      ∧ filterConjunct n M (.notE (.ge e1 e2)) = M ++ [⟨r, b - 1, false⟩]
      ∧ filterConjunct n M (.notE (.lt e2 e1)) = M ++ [⟨r, b, false⟩]
      ∧ filterConjunct n M (.notE (.gt e1 e2)) = M ++ [⟨r, b, false⟩])
    ∧ ∀ x, (0 ≤ dot r x + (b - 1) ↔ evalArith x e1 < evalArith x e2)
        ∧ (0 ≤ dot r x + b ↔ evalArith x e1 ≤ evalArith x e2) := by
  obtain ⟨hp1, hrep⟩ := pushIneq_spec M n e1 e2 1 r1 b1 r b hv1 hv2 h1 h2
  obtain ⟨hp0, _⟩ := pushIneq_spec M n e1 e2 0 r1 b1 r b hv1 hv2 h1 h2
  rw [sub_zero] at hp0
  refine ⟨⟨hp1, hp1, hp1, hp1, hp0, hp0⟩, fun x => ?_⟩
  have hx := hrep x
  constructor
  · constructor
    · intro h; omega
    · intro h; omega
  · constructor
    · intro h; omega
    · intro h; omega

theorem filter_interpreted_strict_witness :
    (varsBelow 2 (Expr.var 0) = true ∧ varsBelow 2 (Expr.num 3) = true
      ∧ is_linear (.var 0) (zeroRow 2) 0 (-1) = some ([-1, 0], 0)
      ∧ is_linear (.num 3) [-1, 0] 0 1 = some ([-1, 0], 3))
    ∧ filterConjunct 2 [] (.lt (.var 0) (.num 3)) =
        [] ++ [⟨[-1, 0], 3 - 1, false⟩] :=
  ⟨⟨by decide, by decide, by decide, by decide⟩,
   (filter_interpreted_strict 2 [] (.var 0) (.num 3) [-1, 0] 0 [-1, 0] 3
      (by decide) (by decide) (by decide) (by decide)).1.1⟩

/-- **C6.** A conjunct `(v = n₁) ∨ (v = n₂)` over the same variable with
integer numerals makes the parser push exactly the two inequality rows
`v − min(n₁,n₂) ≥ 0` and `−v + max(n₁,n₂) ≥ 0`, whose conjunction holds
exactly on the convex hull `min ≤ v ≤ max`. -/
theorem filter_interpreted_disjunction (n : ℕ) (M : KMatrix) (e1 e2 : Expr)
    (v : ℕ) (n1 n2 : ℤ)
    (h1 : isEqVarNum e1 = some (v, n1)) (h2 : isEqVarNum e2 = some (v, n2))
    (hv : v < n) :
    filterConjunct n M (.orE e1 e2) =
      M ++ [⟨unitRow n v 1, -(min n1 n2), false⟩,
            ⟨unitRow n v (-1), max n1 n2, false⟩]
    ∧ ∀ x, ((0 ≤ dot (unitRow n v 1) x + -(min n1 n2)
              ∧ 0 ≤ dot (unitRow n v (-1)) x + max n1 n2)
            ↔ (min n1 n2 ≤ x v ∧ x v ≤ max n1 n2)) := by
  have hset : (unitRow n v 1).set v (-1) = unitRow n v (-1) := by
    simp [unitRow, List.set_set]
  constructor
  · simp only [filterConjunct, h1, h2, if_pos rfl, hset]
    by_cases hc : n1 > n2
    · rw [if_pos hc, if_pos hc,
          min_eq_right (le_of_lt hc), max_eq_left (le_of_lt hc)]
      simp
    · rw [if_neg hc, if_neg hc,
          min_eq_left (by omega), max_eq_right (by omega)]
      simp
  · intro x
    rw [dot_unitRow x n v 1 hv, dot_unitRow x n v (-1) hv]
    omega

theorem filter_interpreted_disjunction_witness :
    (isEqVarNum (.eqE (.var 0) (.num 5)) = some (0, 5)
      ∧ isEqVarNum (.eqE (.num 1) (.var 0)) = some (0, 1)
      ∧ 0 < 1)
    ∧ filterConjunct 1 []
        (.orE (.eqE (.var 0) (.num 5)) (.eqE (.num 1) (.var 0))) =
      [] ++ [⟨unitRow 1 0 1, -(min 5 1), false⟩,
             ⟨unitRow 1 0 (-1), max 5 1, false⟩] :=
  ⟨⟨by decide, by decide, by decide⟩,
   (filter_interpreted_disjunction 1 [] (.eqE (.var 0) (.num 5))
      (.eqE (.num 1) (.var 0)) 0 5 1 (by decide) (by decide) (by decide)).1⟩

/-! ## FormulaEmitter correctness -/

theorem evalArith_mkAddE (x : ℕ → ℤ) :
    ∀ l : List Expr, evalArith x (mkAddE l) = (l.map (evalArith x)).sum := by
  intro l
  induction l with
  | nil => simp [mkAddE, evalArith]
  | cons e es ih =>
    cases es with
    | nil => simp [mkAddE]
    | cons e2 rest =>
      simp only [mkAddE, evalArith, List.map_cons, List.sum_cons] at *
      rw [ih]

theorem evalProp_mkAndE (x : ℕ → ℤ) :
    ∀ l : List Expr, evalProp x (mkAndE l) = l.all (evalProp x) := by
  intro l
  induction l with
  | nil => simp [mkAndE, evalProp]
  | cons e es ih =>
    cases es with
    | nil => simp [mkAndE]
    | cons e2 rest =>
      simp only [mkAndE, evalProp, List.all_cons] at *
      rw [ih]

theorem rowTerms_sum (x : ℕ → ℤ) :
    ∀ (a : List ℤ) (i : ℕ),
      ((rowTerms a i).map (evalArith x)).sum = dotAux x a i := by
  intro a
  induction a with
  | nil => intro i; simp [rowTerms, dotAux]
  | cons c cs ih =>
    intro i
    simp only [rowTerms, dotAux, List.map_append, List.sum_append, ih]
    by_cases h0 : c = 0
    · simp [h0]
    · by_cases h1 : c = 1
      · simp [h0, h1, evalArith]
      · simp [h0, h1, evalArith]

theorem evalProp_rowFormula (x : ℕ → ℤ) (row : KRow) :
    evalProp x (rowFormula row) =
      (if row.eq then decide (dot row.a x + row.b = 0)
       else decide (0 ≤ dot row.a x + row.b)) := by
  obtain ⟨a, b, eqf⟩ := row
  have hsum : evalArith x
      (mkAddE (rowTerms a 0 ++ (if b = 0 then [] else [Expr.num b]))) =
      dot a x + b := by
    rw [evalArith_mkAddE]
    simp only [List.map_append, List.sum_append, rowTerms_sum]
    by_cases hb : b = 0
    · simp [hb, dot]
    · simp [hb, dot, evalArith]
  cases eqf with
  | false =>
    simp only [rowFormula, if_neg (Bool.false_ne_true)]
    simp [evalProp, hsum, evalArith]
  | true =>
    simp only [rowFormula, if_pos rfl]
    simp [evalProp, hsum, evalArith]

/-- **C10.** A predicate whose emitted formula is the literal `true` — in
particular any full relation, whose constraint matrix is empty — is left
alone: `get_invariants` skips it (`continue` before the insert), and the
model converter's `add` ignores a `true` invariant, so neither the rules
nor the model interpretation are touched on its account. -/
theorem true_invariant_ignored :
    (∀ n, to_formula (mk_full n) = .trueE)
    ∧ (∀ (m : List (ℕ × Expr)) (p : ℕ), updateInvariant m p .trueE = m)
    ∧ (∀ (st : List (ℕ × Expr)) (p : ℕ), mcAdd st p .trueE = st) :=
  ⟨fun _ => rfl, fun _ _ => rfl, fun _ _ => rfl⟩

/-! ## `add_fact` (C2) -/

theorem factRows_eq (w : ℕ) :
    ∀ (l : List Expr) (i : ℕ),
      factRows w l i = (List.enumFrom i l).filterMap
        (fun p => (isNumeral p.2).map
          (fun k => (⟨unitRow w p.1 1, -k, true⟩ : KRow))) := by
  intro l
  induction l with
  | nil => intro i; simp [factRows]
  | cons e es ih =>
    intro i
    simp only [factRows, List.enumFrom, List.filterMap_cons, ih]
    cases h : isNumeral e <;> simp [h]

theorem factRows_all_num_eval (x : ℕ → ℤ) (w : ℕ) :
    ∀ (ks : List ℤ) (i : ℕ), i + ks.length ≤ w →
      ((factRows w (ks.map .num) i).all
          (fun row => evalProp x (rowFormula row)) = true
        ↔ ∀ j (h : j < ks.length), x (i + j) = ks.get ⟨j, h⟩) := by
  intro ks
  induction ks with
  | nil => intro i _; simp [factRows]
  | cons k ks ih =>
    intro i hw
    have hi : i < w := by simp at hw; omega
    have hrow : evalProp x (rowFormula ⟨unitRow w i 1, -k, true⟩) =
        decide (x i = k) := by
      rw [evalProp_rowFormula]
      simp only [if_pos rfl, dot_unitRow x w i 1 hi]
      simp [sub_eq_zero]
      constructor
      · intro h; omega
      · intro h; omega
    simp only [List.map_cons, factRows, isNumeral, List.singleton_append,
      List.all_cons, Bool.and_eq_true, hrow, decide_eq_true_eq]
    rw [ih (i + 1) (by simp at hw ⊢; omega)]
    constructor
    · rintro ⟨hk, hrest⟩ j hj
      cases j with
      | zero => simpa using hk
      | succ j =>
        have hj2 : j < ks.length := by simpa using hj
        have hv := hrest j hj2
        have hidx : i + 1 + j = i + (j + 1) := by omega
        rw [hidx] at hv
        simpa using hv
    · intro h
      refine ⟨by simpa using h 0 (by simp), fun j hj => ?_⟩
      have hv := h (j + 1) (by simpa using hj)
      have hidx : i + (j + 1) = i + 1 + j := by omega
      rw [hidx] at hv
      simpa using hv

theorem list_all_map {α β : Type} (f : α → β) (p : β → Bool) :
    ∀ l : List α, (l.map f).all p = l.all (fun a => p (f a)) := by
  intro l
  induction l with
  | nil => rfl
  | cons a as ih => simp [ih]

/-- **C2.** `add_fact` on a freshly empty relation of arity `n` adds, for
each integer-numeral component `k` at position `i`, exactly one equality
row with coefficient 1 at column `i` and constant `−k` (non-numeral
components add nothing), and clears `empty` while setting `ineqs_valid`;
when every component is a numeral, the emitted formula holds under an
assignment exactly when every column equals its pinned value. -/
theorem add_fact_spec (n : ℕ) (f : List Expr) (hf : f.length = n) :
    ((add_fact (mk_empty n) f).empty = false
      ∧ (add_fact (mk_empty n) f).ineqs_valid = true
      ∧ (add_fact (mk_empty n) f).basis_valid = false)
    ∧ (add_fact (mk_empty n) f).ineqs =
        (List.enumFrom 0 f).filterMap
          (fun p => (isNumeral p.2).map
            (fun k => (⟨unitRow f.length p.1 1, -k, true⟩ : KRow)))
    ∧ (∀ ks : List ℤ, f = ks.map .num →
        ∀ x, (evalProp x (to_formula (add_fact (mk_empty n) f)) = true
          ↔ ∀ j (h : j < ks.length), x j = ks.get ⟨j, h⟩)) := by
  refine ⟨⟨rfl, rfl, rfl⟩, ?_, ?_⟩
  · show [] ++ factRows f.length f 0 = _
    rw [List.nil_append, factRows_eq]
  · rintro ks rfl x
    rw [show to_formula (add_fact (mk_empty n) (ks.map .num)) =
        mkAndE ((factRows (ks.map Expr.num).length (ks.map .num) 0).map
          rowFormula) from rfl]
    rw [evalProp_mkAndE, list_all_map]
    have hfr := factRows_all_num_eval x (ks.map Expr.num).length ks 0
      (by simp)
    simp only [Nat.zero_add] at hfr
    exact hfr

theorem add_fact_spec_witness :
    ([Expr.num 3, Expr.num 4].length = 2)
    ∧ ((add_fact (mk_empty 2) [.num 3, .num 4]).empty = false
        ∧ (add_fact (mk_empty 2) [.num 3, .num 4]).ineqs_valid = true
        ∧ (add_fact (mk_empty 2) [.num 3, .num 4]).basis_valid = false) :=
  ⟨rfl, (add_fact_spec 2 [.num 3, .num 4] rfl).1⟩

/-! ## `filter_equal` (C1) -/

/-- **C1** fails on the code: `filter_equal(0, 2)` on the full arity-1
relation pushes the row `x₀ − 1 = 0` — the constant pushed is the literal
`rational(-1)` of the source, not `−m_value = −2` — so the column is
pinned to 1, not to the value 2 (the non-numeral case is a no-op as
claimed). -/
theorem filter_equal_value_bug :
    mkFilterEqualFn (.num 2) 0 = ⟨0, 2, true⟩
    ∧ applyFilterEqual (mkFilterEqualFn (.num 2) 0) (mk_full 1) =
        { sig := 1, empty := false, ineqs := [⟨[1], -1, true⟩],
          ineqs_valid := true, basis := [], basis_valid := false }
    ∧ (∀ x : ℕ → ℤ, dot [1] x + (-1) = 0 ↔ x 0 = 1)
    ∧ ([⟨[1], -1, true⟩] : KMatrix) ≠ [⟨[1], -2, true⟩]
    ∧ applyFilterEqual (mkFilterEqualFn (.add (.var 0) (.num 1)) 0)
        (mk_full 1) = mk_full 1 := by
  refine ⟨rfl, by decide, ?_, by decide, rfl⟩
  intro x
  simp [dot, dotAux]
  omega

/-! ## Invariant map monotonicity (C8) -/

theorem findInv_insertInv (p : ℕ) (f : Expr) :
    ∀ m : List (ℕ × Expr), findInv (insertInv m p f) p = some f := by
  intro m
  induction m with
  | nil => simp [insertInv, findInv, List.find?]
  | cons qg rest ih =>
    obtain ⟨q, g⟩ := qg
    by_cases hq : q = p
    · simp [insertInv, hq, findInv, List.find?]
    · simp only [insertInv, if_neg hq]
      simpa [findInv, List.find?, hq] using ih

/-- **C8.** `get_invariants` updates the per-predicate invariant map
monotonically: when a (non-`true`) formula is computed for a predicate
that already has an entry `inv`, the entry stored afterwards is the
conjunction of `inv` with the new formula, and the only other behaviour
on an existing entry (a `true` formula) leaves the map untouched — an
entry is never replaced by anything but a conjunction with it. -/
theorem invariant_map_monotone (m : List (ℕ × Expr)) (p : ℕ)
    (inv fml : Expr) (hfind : findInv m p = some inv) :
    (isTrueE fml = false →
       findInv (updateInvariant m p fml) p = some (.andE inv fml))
    ∧ (isTrueE fml = true → updateInvariant m p fml = m) := by
  constructor
  · intro hnt
    rw [updateInvariant, hnt]
    simp only [Bool.false_eq_true, if_false, hfind]
    exact findInv_insertInv p (.andE inv fml) m
  · intro ht
    rw [updateInvariant, ht]
    simp

theorem invariant_map_monotone_witness :
    (findInv [(0, Expr.falseE)] 0 = some .falseE
      ∧ isTrueE .falseE = false)
    ∧ findInv (updateInvariant [(0, Expr.falseE)] 0 .falseE) 0 =
        some (.andE .falseE .falseE) :=
  ⟨⟨by decide, by decide⟩,
   (invariant_map_monotone [(0, .falseE)] 0 .falseE .falseE
      (by decide)).1 (by decide)⟩

/-! ## Driver guards (C9) -/

/-- **C9.** `operator()` returns 0 — no transformation, the input rule set
is kept unchanged by the transformer framework — when the `karr`
configuration flag is off, and likewise when any rule of the input rule
set contains a negated atom. -/
theorem karr_transform_guard (rest : List RuleR → Option (List RuleR))
    (rules : List RuleR) :
    (karrTransform rest false rules = none)
    ∧ (∀ flag, rules.any (fun r => r.hasNegation) = true →
        karrTransform rest flag rules = none) := by
  refine ⟨rfl, fun flag hneg => ?_⟩
  cases flag
  · rfl
  · simp [karrTransform, hneg]

theorem karr_transform_guard_witness :
    ([(⟨true⟩ : RuleR)].any (fun r => r.hasNegation) = true)
    ∧ karrTransform (fun rs => some rs) true [⟨true⟩] = none :=
  ⟨by decide,
   (karr_transform_guard (fun rs => some rs) [⟨true⟩]).2 true (by decide)⟩

/-! ## `mk_rename` (C4) -/

/-- The example relation of the rename scenario: three columns, single
constraint `x₀ − x₁ = 0`. -/
def renameEx : KarrRel :=
  { sig := 3, empty := false, ineqs := [⟨[1, -1, 0], 0, true⟩],
    ineqs_valid := true, basis := [], basis_valid := false }

/-- **C4.** `mk_rename` rotates the columns of every row of each valid
matrix form by the given cycle (stash `row[cycle[0]]`, shift
`row[cycle[i]] ← row[cycle[i+1]]`, write the stash to `row[cycle[k−1]]`)
and preserves both validity flags; consequently the relation whose sole
constraint is `x₀ − x₁ = 0` over three columns, renamed by the cycle
`(0,1,2)`, has sole constraint `−x₀ + x₂ = 0`, i.e. `x₂ − x₀ = 0`. -/
theorem mk_rename_spec :
    (∀ (r : KarrRel) (cols : List ℕ), r.empty = false →
       (mk_rename cols r).ineqs_valid = r.ineqs_valid
       ∧ (mk_rename cols r).basis_valid = r.basis_valid
       ∧ (mk_rename cols r).ineqs =
           (if r.ineqs_valid then renameMatrix cols r.ineqs else [])
       ∧ (mk_rename cols r).basis =
           (if r.basis_valid then renameMatrix cols r.basis else []))
    ∧ mk_rename [0, 1, 2] renameEx =
      { sig := 3, empty := false, ineqs := [⟨[-1, 0, 1], 0, true⟩],
        ineqs_valid := true, basis := [], basis_valid := false } := by
  constructor
  · intro r cols hr
    simp [mk_rename, hr]
  · rfl

theorem mk_rename_spec_witness :
    (renameEx.empty = false)
    ∧ ((mk_rename [0, 1, 2] renameEx).ineqs_valid = renameEx.ineqs_valid
        ∧ (mk_rename [0, 1, 2] renameEx).basis_valid = renameEx.basis_valid
        ∧ (mk_rename [0, 1, 2] renameEx).ineqs =
            (if renameEx.ineqs_valid
             then renameMatrix [0, 1, 2] renameEx.ineqs else [])
        ∧ (mk_rename [0, 1, 2] renameEx).basis =
            (if renameEx.basis_valid
             then renameMatrix [0, 1, 2] renameEx.basis else [])) :=
  ⟨rfl, mk_rename_spec.1 renameEx [0, 1, 2] rfl⟩

/-! ## `mk_union` (C3) -/

theorem sameRowB_iff (s r : KRow) : sameRowB s r = true ↔ s = r := by
  obtain ⟨a1, b1, e1⟩ := s
  obtain ⟨a2, b2, e2⟩ := r
  simp [sameRowB, KRow.mk.injEq, and_assoc]

theorem anyRow_iff (N : KMatrix) (r : KRow) :
    N.any (fun s => sameRowB s r) = true ↔ r ∈ N := by
  simp [List.any_eq_true, sameRowB_iff]

theorem newUnionRows_nil_iff (N M : KMatrix) :
    newUnionRows N M = [] ↔ ∀ r ∈ M, r ∈ N := by
  rw [newUnionRows, List.filter_eq_nil_iff]
  constructor
  · intro h r hr
    have h2 := h r hr
    rw [← anyRow_iff N r]
    simpa using h2
  · intro h r hr
    have h2 := h r hr
    rw [← anyRow_iff N r] at h2
    simpa using h2

/-- **C3.** `mk_union(src, delta)`: an empty `src` leaves the target
unchanged and marks a supplied `delta` empty; an empty target adopts
`src`'s basis wholesale (with the flags updated accordingly) and `delta`
receives a copy of the target; otherwise exactly the rows of `src`'s basis
with no exact duplicate (same coefficients, constant and tag) in the
target's basis are appended, `ineqs_valid` becomes false, and `delta`
receives a copy of the updated target precisely when at least one row was
appended.  (Both bases are taken already materialised, per the source's
`get_basis()` calls.) -/
theorem mk_union_spec (self src d : KarrRel) :
    (src.empty = true →
       mk_union self src (some d) = (self, some { d with empty := true }))
    ∧ (src.empty = false → self.empty = true → src.basis_valid = true →
       mk_union self src (some d) =
         ({ self with basis := src.basis, basis_valid := true,
                      empty := false, ineqs_valid := false },
          some (copyRel d
            { self with basis := src.basis, basis_valid := true,
                        empty := false, ineqs_valid := false })))
    ∧ (src.empty = false → self.empty = false → src.basis_valid = true →
        self.basis_valid = true →
       (mk_union self src (some d) =
         ({ self with basis := self.basis ++ newUnionRows self.basis src.basis,
                      ineqs_valid := false },
          if newUnionRows self.basis src.basis = [] then some d
          else some (copyRel d
            { self with
                basis := self.basis ++ newUnionRows self.basis src.basis,
                ineqs_valid := false })))
       ∧ (newUnionRows self.basis src.basis = [] ↔
            ∀ r ∈ src.basis, r ∈ self.basis)) := by
  refine ⟨?_, ?_, ?_⟩
  · intro h1
    simp [mk_union, h1]
  · intro h1 h2 _
    simp [mk_union, h1, h2]
  · intro h1 h2 _ _
    refine ⟨?_, newUnionRows_nil_iff _ _⟩
    rw [mk_union, if_neg (show ¬ src.empty = true by simp [h1]),
        if_neg (show ¬ self.empty = true by simp [h2])]
    show ({ self with
              basis := self.basis ++ newUnionRows self.basis src.basis,
              ineqs_valid := false },
          if self.basis.length ≠
              (self.basis ++ newUnionRows self.basis src.basis).length
          then some (copyRel d
            { self with
                basis := self.basis ++ newUnionRows self.basis src.basis,
                ineqs_valid := false })
          else some d) = _
    by_cases hnil : newUnionRows self.basis src.basis = []
    · rw [if_pos hnil,
          if_neg (show ¬ self.basis.length ≠
            (self.basis ++ newUnionRows self.basis src.basis).length by
              rw [hnil]; simp)]
    · rw [if_neg hnil,
          if_pos (show self.basis.length ≠
            (self.basis ++ newUnionRows self.basis src.basis).length by
              simp only [List.length_append]
              intro hc
              exact hnil (List.length_eq_zero.mp (by omega)))]

def unionSelf : KarrRel :=
  { sig := 1, empty := false, ineqs := [], ineqs_valid := false,
    basis := [⟨[2], 0, true⟩], basis_valid := true }

def unionSrc : KarrRel :=
  { sig := 1, empty := false, ineqs := [], ineqs_valid := false,
    basis := [⟨[1], 1, true⟩], basis_valid := true }

theorem mk_union_spec_witness :
    ((mk_empty 1).empty = true
      ∧ unionSrc.empty = false ∧ unionSelf.empty = false
      ∧ unionSrc.basis_valid = true ∧ unionSelf.basis_valid = true)
    ∧ mk_union unionSelf (mk_empty 1) (some (mk_empty 1)) =
        (unionSelf, some { mk_empty 1 with empty := true })
    ∧ mk_union (mk_empty 1) unionSrc (some (mk_empty 1)) =
        ({ mk_empty 1 with basis := unionSrc.basis, basis_valid := true,
                           empty := false, ineqs_valid := false },
         some (copyRel (mk_empty 1)
           { mk_empty 1 with basis := unionSrc.basis, basis_valid := true,
                             empty := false, ineqs_valid := false }))
    ∧ mk_union unionSelf unionSrc (some (mk_empty 1)) =
        ({ unionSelf with
             basis := unionSelf.basis
               ++ newUnionRows unionSelf.basis unionSrc.basis,
             ineqs_valid := false },
         if newUnionRows unionSelf.basis unionSrc.basis = []
         then some (mk_empty 1)
         else some (copyRel (mk_empty 1)
           { unionSelf with
               basis := unionSelf.basis
                 ++ newUnionRows unionSelf.basis unionSrc.basis,
               ineqs_valid := false })) :=
  ⟨⟨rfl, rfl, rfl, rfl, rfl⟩,
   (mk_union_spec unionSelf (mk_empty 1) (mk_empty 1)).1 rfl,
   ((mk_union_spec (mk_empty 1) unionSrc (mk_empty 1)).2.1 rfl rfl rfl),
   ((mk_union_spec unionSelf unionSrc (mk_empty 1)).2.2 rfl rfl rfl rfl).1⟩

/-! ## Dualizer (C7) -/

theorem emitBasis_cons_noninit (s : List ℤ) (rest : List (List ℤ × Bool))
    (fi : Bool) :
    emitBasis ((s, false) :: rest) fi = ⟨s, 0, true⟩ :: emitBasis rest fi := by
  cases fi <;> rfl

theorem emitBasis_cons_init_first (s : List ℤ)
    (rest : List (List ℤ × Bool)) :
    emitBasis ((s, true) :: rest) true = ⟨s, 1, true⟩ :: emitBasis rest false :=
  rfl

theorem emitBasis_cons_init_later (s : List ℤ)
    (rest : List (List ℤ × Bool)) :
    emitBasis ((s, true) :: rest) false = emitBasis rest false :=
  rfl

theorem emitBasis_rows_eq :
    ∀ (solns : List (List ℤ × Bool)) (fi : Bool),
      ∀ row ∈ emitBasis solns fi, row.eq = true := by
  intro solns
  induction solns with
  | nil => intro fi row h; simp [emitBasis] at h
  | cons p rest ih =>
    intro fi row h
    obtain ⟨s, isInit⟩ := p
    cases isInit with
    | false =>
      rw [emitBasis_cons_noninit] at h
      rcases List.mem_cons.mp h with h | h
      · rw [h]
      · exact ih fi row h
    | true =>
      cases fi with
      | false =>
        rw [emitBasis_cons_init_later] at h
        exact ih false row h
      | true =>
        rw [emitBasis_cons_init_first] at h
        rcases List.mem_cons.mp h with h | h
        · rw [h]
        · exact ih false row h

theorem emitBasis_zero_rows :
    ∀ (solns : List (List ℤ × Bool)) (fi : Bool),
      (emitBasis solns fi).filter (fun row => row.b == 0) =
        (solns.filter (fun p => !p.2)).map
          (fun p => (⟨p.1, 0, true⟩ : KRow)) := by
  intro solns
  induction solns with
  | nil => intro fi; simp [emitBasis]
  | cons p rest ih =>
    intro fi
    obtain ⟨s, isInit⟩ := p
    cases isInit with
    | false =>
      rw [emitBasis_cons_noninit]
      simp [List.filter_cons, ih fi]
    | true =>
      cases fi with
      | false =>
        rw [emitBasis_cons_init_later]
        simp [List.filter_cons, ih false]
      | true =>
        rw [emitBasis_cons_init_first]
        simp [List.filter_cons, ih false]

theorem emitBasis_one_rows_false :
    ∀ solns : List (List ℤ × Bool),
      (emitBasis solns false).filter (fun row => row.b != 0) = [] := by
  intro solns
  induction solns with
  | nil => simp [emitBasis]
  | cons p rest ih =>
    obtain ⟨s, isInit⟩ := p
    cases isInit with
    | false =>
      rw [emitBasis_cons_noninit]
      simpa [List.filter_cons] using ih
    | true =>
      rw [emitBasis_cons_init_later]
      exact ih

theorem emitBasis_one_rows :
    ∀ solns : List (List ℤ × Bool),
      (emitBasis solns true).filter (fun row => row.b != 0) =
        (match solns.find? (fun p => p.2) with
         | some p => [(⟨p.1, 1, true⟩ : KRow)]
         | none => []) := by
  intro solns
  induction solns with
  | nil => simp [emitBasis]
  | cons p rest ih =>
    obtain ⟨s, isInit⟩ := p
    cases isInit with
    | false =>
      rw [emitBasis_cons_noninit]
      simpa [List.filter_cons, List.find?] using ih
    | true =>
      rw [emitBasis_cons_init_first]
      simp [List.filter_cons, List.find?, emitBasis_one_rows_false rest]

/-- **C7.** `dualizeI` fails exactly on a saturator UNSAT (and the caller
`init_basis` then marks the relation empty); UNDEF, and any exception —
caught and collapsed to UNDEF — yield success with an empty basis; on SAT
the emitted basis consists of the first initial solution with constant 1
(later initial solutions are dropped) and every non-initial solution with
constant 0, all rows tagged equality. -/
theorem dualizeI_spec :
    (∀ res, dualizeI res = none ↔ res = .unsat)
    ∧ (dualizeI .undef = some [] ∧ dualizeI .exn = some [])
    ∧ (∀ (r : KarrRel) (res : SatResult), r.basis_valid = false →
        res = .unsat → (init_basis r res).empty = true)
    ∧ (∀ solns, dualizeI (.sat solns) = some (emitBasis solns true)
        ∧ (∀ row ∈ emitBasis solns true, row.eq = true)
        ∧ (emitBasis solns true).filter (fun row => row.b == 0) =
            (solns.filter (fun p => !p.2)).map
              (fun p => (⟨p.1, 0, true⟩ : KRow))
        ∧ (emitBasis solns true).filter (fun row => row.b != 0) =
            (match solns.find? (fun p => p.2) with
             | some p => [(⟨p.1, 1, true⟩ : KRow)]
             | none => [])) := by
  refine ⟨?_, ⟨rfl, rfl⟩, ?_, ?_⟩
  · intro res
    cases res <;> simp [dualizeI]
  · rintro r res hb rfl
    simp [init_basis, hb, dualizeI]
  · intro solns
    exact ⟨rfl, emitBasis_rows_eq solns true, emitBasis_zero_rows solns true,
      emitBasis_one_rows solns⟩

theorem dualizeI_spec_witness :
    ((mk_full 1).basis_valid = false)
    ∧ (init_basis (mk_full 1) .unsat).empty = true :=
  ⟨rfl, dualizeI_spec.2.2.1 (mk_full 1) .unsat rfl rfl⟩

end Karr
